import Mathlib

/-!
Verification of the classical-CV finger-counting pipeline of
`improved_hand_detector.py` (class `ImprovedHandDetector`).

The pure geometric and stabilization logic of the detector is embedded
shallowly below.  OpenCV primitives (`cv2.findContours`, `cv2.convexHull`,
`cv2.convexityDefects`, the MOG2 background subtractor and the mask-building
pixel operations) are third-party library calls outside this repository;
they enter the model as explicit parameters (the contour list extracted from
the combined mask, the hull in point/index form, the defect list where
`none` models the exception branch) or, for the background model, as an
abstract accumulating object.  Floating point arithmetic of the source
(`math.dist`, `math.acos`, fractional thresholds) is modelled by exact
integer/rational arithmetic: every comparison in the source is of the form
`sqrt e1 > sqrt e2 * k` or `e > w * k` with `e1, e2, w` integer valued, so
each is equivalent to an exact integer comparison, which is what appears
below (for example `distance > 0.05 * sqrt (fh^2 + fw^2)` becomes
`400 * distSq > fh^2 + fw^2`).
-/

/-- A pixel coordinate, as in an OpenCV contour: integer x (column) and
y (row); the y axis points down. -/
abbrev Point := ℤ × ℤ

/-- An ordered closed polygonal contour, as produced by `cv2.findContours`. -/
abbrev Contour := List Point

/-- A convexity defect `(s, e, f, d)` as produced by `cv2.convexityDefects`:
start index, end index, farthest-point index, and depth scaled by 256. -/
abbrev Defect := ℕ × ℕ × ℕ × ℕ

/-- A camera frame: a grid of 3-channel 8-bit pixels.  Frames are only ever
passed through to the (external) background subtractor in this model, so the
pixel contents are never inspected. -/
abbrev Frame := List (List (ℕ × ℕ × ℕ))

/-- Squared Euclidean distance between two points.  `math.dist p q` in the
source is `Real.sqrt (distSq p q)`; all comparisons on it in the source are
against other square roots and are modelled exactly on the squares. -/
def distSq (p q : Point) : ℤ := (p.1 - q.1) ^ 2 + (p.2 - q.2) ^ 2

/-- Twice the signed area of the closed polygon `c` (the shoelace sum
`Σ (x_i * y_{i+1} - x_{i+1} * y_i)`).  This is `2 * m00` of
`cv2.moments(contour)` up to the orientation sign, which OpenCV normalizes
away; in particular `m00 == 0` in the source iff `crossSum c = 0`. -/
def crossSum (c : Contour) : ℤ :=
  (c.zip (c.rotate 1)).foldl (fun acc pq => acc + (pq.1.1 * pq.2.2 - pq.2.1 * pq.1.2)) 0

/-- Six times the first moment `m10` of the polygon `c` (Green formula), up
to the same orientation sign as `crossSum`. -/
def m10s (c : Contour) : ℤ :=
  (c.zip (c.rotate 1)).foldl
    (fun acc pq => acc + (pq.1.1 * pq.2.2 - pq.2.1 * pq.1.2) * (pq.1.1 + pq.2.1)) 0

/-- Six times the first moment `m01` of the polygon `c`, up to the same
orientation sign as `crossSum`. -/
def m01s (c : Contour) : ℤ :=
  (c.zip (c.rotate 1)).foldl
    (fun acc pq => acc + (pq.1.1 * pq.2.2 - pq.2.1 * pq.1.2) * (pq.1.2 + pq.2.2)) 0

/-- Python `int(a / b)` for integers `a`, `b` with `b ≠ 0`: the real
quotient truncated toward zero. -/
def pyTrunc (a b : ℤ) : ℤ := a.sign * b.sign * (a.natAbs / b.natAbs : ℕ)

/-- Lines 95-101 of the source: the hand center `(cx, cy)` computed from the
contour moments, `cx = int(m10 / m00)`, `cy = int(m01 / m00)`; `none` when
the area moment `m00` is zero.  The orientation sign of the moment sums
cancels in the quotients, so it is dropped. -/
def contourCenter (c : Contour) : Option Point :=
  if crossSum c = 0 then none
  else some (pyTrunc (m10s c) (3 * crossSum c), pyTrunc (m01s c) (3 * crossSum c))

/-- Width of `cv2.boundingRect` of the contour: `max x - min x + 1`
(OpenCV bounding boxes are inclusive of both extreme pixels). -/
def bboxW (c : Contour) : ℤ :=
  match c with
  | [] => 0
  | p :: rest => rest.foldl (fun m q => max m q.1) p.1
      - rest.foldl (fun m q => min m q.1) p.1 + 1

/-- Twice `cv2.contourArea`: the absolute value of the shoelace sum (the
area of an integer polygon is a half-integer, so its double is kept to stay
in exact integer arithmetic; every comparison against it in the source is
scaled by 2 accordingly). -/
def contourArea2 (c : Contour) : ℤ := |crossSum c|

/-- Lines 58-69 of the source, `_get_largest_contour`: filter the contours
extracted from the mask by `cv2.contourArea(cnt) > min_area` (strictly
greater), then take the one of maximal area; Python `max` keeps the first
of several maxima.  `none` when no contour passes the filter. -/
def getLargestContour (contours : List Contour) (minArea : ℤ) : Option Contour :=
  match contours.filter (fun c => decide (2 * minArea < contourArea2 c)) with
  | [] => none
  | c :: rest =>
      some (rest.foldl (fun best d => if contourArea2 best < contourArea2 d then d else best) c)

/-- The extractor as the specification describes it, for comparison:
"discard any contour whose enclosed area is below the threshold", i.e. keep
contours with area greater than or equal to the threshold. -/
def getLargestContourSpec (contours : List Contour) (minArea : ℤ) : Option Contour :=
  match contours.filter (fun c => decide (2 * minArea ≤ contourArea2 c)) with
  | [] => none
  | c :: rest =>
      some (rest.foldl (fun best d => if contourArea2 best < contourArea2 d then d else best) c)

/-- Lines 71-84 of the source, `_get_defects_and_hull`: `(none, none)` when
the contour is absent or has fewer than 5 points; otherwise the hull in
index form (`cvHullIdx`, computed by `cv2.convexHull`) together with the
result of `cv2.convexityDefects` (`cvDefects`; `none` models the
exception branch of the `try`, which the source swallows, returning
`(None, hull)`). -/
def getDefectsAndHull (contour : Option Contour) (cvHullIdx : List ℕ)
    (cvDefects : Option (List Defect)) : Option (List Defect) × Option (List ℕ) :=
  match contour with
  | none => (none, none)
  | some c => if c.length < 5 then (none, none) else (cvDefects, some cvHullIdx)

/-- Lines 107-128 of the source: the defect triangles classified as finger
valleys.  For each defect `(s, e, f, d)`: the interior angle at the far
point is below 90 degrees iff the law-of-cosines numerator
`a^2 + b^2 - c^2` is positive (acos is strictly decreasing), the `a*b == 0`
guard is `distSq = 0` on either side, and the unscaled depth test
`d / 256.0 > 10` is `d > 2560`.  The source builds this list and never
reads it again: it does not influence the fingertip list or the count. -/
def fingerValleys (c : Contour) (defects : List Defect) : List (Point × Point × Point) :=
  defects.filterMap (fun q =>
    let start := c.getD q.1 (0, 0)
    let stop := c.getD q.2.1 (0, 0)
    let far := c.getD q.2.2.1 (0, 0)
    let a2 := distSq far start
    let b2 := distSq far stop
    let c2 := distSq start stop
    if a2 = 0 ∨ b2 = 0 then none
    else if 0 < a2 + b2 - c2 ∧ 2560 < q.2.2.2 then some (start, stop, far) else none)

/-- Lines 145-151 of the source: a hull vertex is kept as a candidate
fingertip iff it is above the hand center (`point[1] < cy`) and its distance
from the center exceeds 5 percent of the frame diagonal
(`dist > sqrt(fh^2 + fw^2) * 0.05`, i.e. `400 * distSq > fh^2 + fw^2`). -/
def candPred (ctr : Point) (fh fw : ℕ) (p : Point) : Bool :=
  decide (p.2 < ctr.2) && decide ((fh : ℤ) ^ 2 + (fw : ℤ) ^ 2 < 400 * distSq p ctr)

/-- The initial fingertip candidate list of `_find_fingertips`. -/
def candidateFingertips (hullPoints : List Point) (ctr : Point) (fh fw : ℕ) : List Point :=
  hullPoints.filter (candPred ctr fh fw)

/-- Lines 155-161 of the source: a hull vertex is a thumb candidate iff its
horizontal offset from the center exceeds a quarter of the bounding-box
width (`abs(point[0] - cx) > w * 0.25`, i.e. `4 * |dx| > w`) and its
distance from the center exceeds the same 5-percent-diagonal threshold. -/
def thumbPred (ctr : Point) (w : ℤ) (fh fw : ℕ) (p : Point) : Bool :=
  decide (w < 4 * |p.1 - ctr.1|) && decide ((fh : ℤ) ^ 2 + (fw : ℤ) ^ 2 < 400 * distSq p ctr)

/-- The thumb candidate list of `_find_fingertips` (the source stores
point-distance pairs; the distances are recomputed here when needed). -/
def thumbCandidates (hullPoints : List Point) (ctr : Point) (w : ℤ) (fh fw : ℕ) : List Point :=
  hullPoints.filter (thumbPred ctr w fh fw)

/-- Insert into a list sorted by decreasing distance from `ctr`, before the
first strictly closer element (so that, inside `sortByDistDesc`, earlier
input elements stay first among equals, matching the stable Python sort). -/
def insertByDistDesc (ctr : Point) (p : Point) : List Point → List Point
  | [] => [p]
  | q :: rest =>
      if distSq p ctr < distSq q ctr then q :: insertByDistDesc ctr p rest
      else p :: q :: rest

/-- `list.sort(key=lambda x: dist(x, ctr), reverse=True)`: a stable sort by
decreasing distance from `ctr` (Python Timsort is stable; any stable sort
agrees with it on this total preorder). -/
def sortByDistDesc (ctr : Point) : List Point → List Point
  | [] => []
  | p :: rest => insertByDistDesc ctr p (sortByDistDesc ctr rest)

/-- Lines 142-168 of the source: the fingertip list before the 5-finger
cap — the above-center candidates, plus the farthest thumb candidate
appended at the end if it is not already present (deduplication by exact
coordinate equality of tuples). -/
def preCapFingertips (c : Contour) (hullPoints : List Point) (ctr : Point)
    (fh fw : ℕ) : List Point :=
  let fingertips := candidateFingertips hullPoints ctr fh fw
  match sortByDistDesc ctr (thumbCandidates hullPoints ctr (bboxW c) fh fw) with
  | [] => fingertips
  | tp :: _ => if tp ∈ fingertips then fingertips else fingertips ++ [tp]

/-- Lines 86-176 of the source, `_find_fingertips`: returns the fingertip
list and its length.  Early exits: absent contour or absent defects
(line 91), zero area moment (line 96).  Otherwise the hull-point candidates
with the thumb special case, capped at the 5 farthest-from-center points
when more than 5 were found.  `hullPoints` is the result of
`cv2.convexHull(contour, returnPoints=True)`. -/
def findFingertips (contour : Option Contour) (defects : Option (List Defect))
    (hullPoints : List Point) (fh fw : ℕ) : List Point × ℕ :=
  match contour, defects with
  | some c, some _ =>
    match contourCenter c with
    | none => ([], 0)
    | some ctr =>
      let pre := preCapFingertips c hullPoints ctr fh fw
      let final := if 5 < pre.length then (sortByDistDesc ctr pre).take 5 else pre
      (final, final.length)
  | _, _ => ([], 0)


/-- One step of the frequency dictionary of `_stabilize_count`
(`counts[c] = counts.get(c, 0) + 1`): increment the entry of `c`, or append
a fresh entry at the end — Python dictionaries iterate in insertion order,
which an association list in order reproduces. -/
def bump : List (ℕ × ℕ) → ℕ → List (ℕ × ℕ)
  | [], c => [(c, 1)]
  | (k, v) :: rest, c => if k = c then (k, v + 1) :: rest else (k, v) :: bump rest c

/-- The frequency dictionary built by scanning the history buffer in order
(lines 185-187 of the source). -/
def tally (h : List ℕ) : List (ℕ × ℕ) := h.foldl bump []

/-- `max(items, key=lambda x: x[1])` over a nonempty association list:
Python max replaces the running best only on a strictly greater key, so the
first of several maxima wins. -/
def pickMax : (ℕ × ℕ) → List (ℕ × ℕ) → ℕ × ℕ
  | b, [] => b
  | b, q :: rest => if b.2 < q.2 then pickMax q rest else pickMax b rest

/-- Line 190 of the source: the most frequent value of the buffer, with
ties broken by the first-encountered value of the scan.  (The source never
reaches the empty case: the buffer always has length 5.) -/
def modeOf (h : List ℕ) : ℕ :=
  match tally h with
  | [] => 0
  | p :: rest => (pickMax p rest).1

/-- The history buffer length (`self.history_length = 5`). -/
def historyLength : ℕ := 5

/-- The background model, `cv2.createBackgroundSubtractorMOG2(history=500,
varThreshold=25, detectShadows=False)`.  The MOG2 statistics live inside
OpenCV; they are modelled abstractly as the constructor configuration plus
the list of frames the model has absorbed, which is exactly the information
every `apply` call feeds it. -/
structure BGModel where
  history : ℕ
  varThreshold : ℕ
  detectShadows : Bool
deriving DecidableEq

/-- A freshly constructed background subtractor together with an empty
absorbed-frame list. -/
def BGModel.create : BGModel × List Frame := (⟨500, 25, false⟩, [])

/-- `bg_subtractor.apply(frame)` updates the accumulated statistics (the
produced foreground mask itself is external and feeds the contour list that
`detectHand` receives as a parameter). -/
def bgApply (m : BGModel × List Frame) (f : Frame) : BGModel × List Frame :=
  (m.1, m.2 ++ [f])

/-- The mutable state of `ImprovedHandDetector` that the per-frame pipeline
and `reset` touch: the background model, the rolling count history with its
write cursor, and the last reported fingertip list and count.  The
display-only fields of the class (`hand_center`, `roi`, `hand_hull`,
`contours`) are not modelled. -/
structure DetectorState where
  bgModel : BGModel × List Frame
  countHistory : List ℕ
  historyIndex : ℕ
  fingerTips : List Point
  fingerCount : ℕ
deriving DecidableEq

/-- The `__init__` state: fresh background model, `count_history = [0] * 5`,
`history_index = 0`, no fingertips, count 0. -/
def initState : DetectorState :=
  { bgModel := BGModel.create
    countHistory := List.replicate historyLength 0
    historyIndex := 0
    fingerTips := []
    fingerCount := 0 }

/-- Lines 38-41 of the source, `reset`: reassigns a fresh
`cv2.createBackgroundSubtractorMOG2(...)` to `self.bg_subtractor` (and
prints a recalibration message, an external side effect).  No other field
of the detector is touched. -/
def reset (s : DetectorState) : DetectorState :=
  { s with bgModel := BGModel.create }

/-- Lines 178-190 of the source, `_stabilize_count`: overwrite the slot at
the write cursor with the new raw count, advance the cursor modulo the
buffer length, and return the mode of the updated buffer. -/
def stabilizeCount (s : DetectorState) (count : ℕ) : DetectorState × ℕ :=
  let h := s.countHistory.set s.historyIndex count
  ({ s with
      countHistory := h
      historyIndex := (s.historyIndex + 1) % historyLength },
   modeOf h)

/-- Lines 192-264 of the source, `detect_hand`, restricted to its state
effects (the drawing on the returned frame copy is external rendering).
Step 1 feeds the frame to the background subtractor; the mask-building
steps 1-3 and `cv2.findContours` are external pixel operations whose result
is the parameter `contours`; `cvDef`, `cvHullIdx` and `cvHullPts` supply
the `cv2.convexityDefects` outcome (`none` for the exception branch) and
the convex hull in index and point form for the selected contour.  When a
qualifying contour exists, its raw count is pushed through the stabilizer;
otherwise the count is set to 0 directly and the history is not touched. -/
def detectHand (s : DetectorState) (frame : Frame) (contours : List Contour)
    (cvDef : Contour → Option (List Defect)) (cvHullIdx : Contour → List ℕ)
    (cvHullPts : Contour → List Point) (fh fw : ℕ) : DetectorState :=
  let s1 : DetectorState := { s with bgModel := bgApply s.bgModel frame }
  match getLargestContour contours 5000 with
  | none => { s1 with fingerCount := 0, fingerTips := [] }
  | some c =>
    let defects := (getDefectsAndHull (some c) (cvHullIdx c) (cvDef c)).1
    let fr := findFingertips (some c) defects (cvHullPts c) fh fw
    let st := stabilizeCount s1 fr.2
    { st.1 with fingerTips := fr.1, fingerCount := st.2 }

/-- First-match lookup in an association list, the reading discipline of a
Python dictionary. -/
def tval : List (ℕ × ℕ) → ℕ → ℕ
  | [], _ => 0
  | (k, v) :: rest, y => if k = y then v else tval rest y

/-- The key list of an association list, in insertion order. -/
def keys (l : List (ℕ × ℕ)) : List ℕ := l.map Prod.fst

/-- Index of the first occurrence of `y` in a list (length of the list when
absent). -/
def firstIdx : List ℕ → ℕ → ℕ
  | [], _ => 0
  | c :: t, y => if c = y then 0 else firstIdx t y + 1

/-- Number of occurrences of `y` in a buffer. -/
def cnt : List ℕ → ℕ → ℕ
  | [], _ => 0
  | c :: t, y => (if y = c then 1 else 0) + cnt t y

theorem cnt_ne_zero_iff_mem (h : List ℕ) (y : ℕ) : cnt h y ≠ 0 ↔ y ∈ h := by
  induction h with
  | nil => simp [cnt]
  | cons c t ih =>
    by_cases hyc : y = c
    · subst hyc; simp [cnt]
    · simp [cnt, hyc, ih]

theorem tval_bump (l : List (ℕ × ℕ)) (c y : ℕ) :
    tval (bump l c) y = tval l y + if y = c then 1 else 0 := by
  induction l with
  | nil =>
    rcases eq_or_ne c y with h | h
    · simp [bump, tval, h]
    · simp [bump, tval, h, h.symm]
  | cons p rest ih =>
    obtain ⟨k, v⟩ := p
    by_cases hkc : k = c
    · subst hkc
      by_cases hky : k = y
      · subst hky; simp [bump, tval]
      · simp [bump, tval, hky, Ne.symm hky]
    · by_cases hky : k = y
      · subst hky
        simp [bump, tval, hkc]
      · simp [bump, tval, hkc, hky, ih]

theorem tval_foldl (h : List ℕ) : ∀ (acc : List (ℕ × ℕ)) (y : ℕ),
    tval (h.foldl bump acc) y = tval acc y + cnt h y := by
  induction h with
  | nil => intro acc y; simp [cnt]
  | cons c t ih =>
    intro acc y
    simp only [List.foldl_cons]
    rw [ih, tval_bump, cnt]
    by_cases hyc : y = c <;> simp [hyc] <;> omega

theorem tval_tally (h : List ℕ) (y : ℕ) : tval (tally h) y = cnt h y := by
  simpa [tval] using tval_foldl h [] y

theorem tval_mem (l : List (ℕ × ℕ)) (y : ℕ) (hne : tval l y ≠ 0) : (y, tval l y) ∈ l := by
  induction l with
  | nil => simp [tval] at hne
  | cons p rest ih =>
    obtain ⟨k, v⟩ := p
    by_cases hky : k = y
    · subst hky; simp [tval]
    · simp only [tval, if_neg hky] at hne ⊢
      exact List.mem_cons_of_mem _ (ih hne)

theorem keys_bump (l : List (ℕ × ℕ)) (c : ℕ) :
    (c ∈ keys l ∧ keys (bump l c) = keys l) ∨
    (c ∉ keys l ∧ keys (bump l c) = keys l ++ [c]) := by
  induction l with
  | nil => right; simp [bump, keys]
  | cons p rest ih =>
    obtain ⟨k, v⟩ := p
    by_cases hkc : k = c
    · subst hkc; left; simp [bump, keys]
    · rcases ih with ⟨hm, he⟩ | ⟨hm, he⟩
      · left
        refine ⟨List.mem_cons_of_mem _ hm, ?_⟩
        simp [bump, keys, hkc] at he ⊢
        exact he
      · right
        have hkne : c ≠ k := fun hh => hkc hh.symm
        constructor
        · simp only [keys, List.map_cons, List.mem_cons, not_or]
          exact ⟨hkne, hm⟩
        · simp [bump, keys, hkc] at he ⊢
          exact he

theorem keys_foldl_nodup (h : List ℕ) : ∀ acc, (keys acc).Nodup → (keys (h.foldl bump acc)).Nodup := by
  induction h with
  | nil => intro acc ha; simpa using ha
  | cons c t ih =>
    intro acc ha
    simp only [List.foldl_cons]
    apply ih
    rcases keys_bump acc c with ⟨_, he⟩ | ⟨hm, he⟩
    · rwa [he]
    · rw [he, List.nodup_append]
      exact ⟨ha, List.nodup_singleton c, fun a haa hac => hm (by
        rcases List.mem_singleton.mp hac with rfl; exact haa)⟩

theorem tval_of_mem_nodup (l : List (ℕ × ℕ)) (p : ℕ × ℕ)
    (hnd : (keys l).Nodup) (hp : p ∈ l) : tval l p.1 = p.2 := by
  induction l with
  | nil => simp at hp
  | cons q rest ih =>
    obtain ⟨k, v⟩ := q
    rcases List.mem_cons.mp hp with rfl | hp'
    · simp [tval]
    · have hk : k ≠ p.1 := by
        intro hh
        have : p.1 ∈ keys rest := List.mem_map_of_mem Prod.fst hp'
        rw [keys, List.map_cons] at hnd
        exact (List.nodup_cons.mp hnd).1 (hh ▸ this)
      have hnd' : (keys rest).Nodup := by
        rw [keys, List.map_cons] at hnd
        exact (List.nodup_cons.mp hnd).2
      simp [tval, hk, ih hnd' hp']

theorem mem_keys_foldl (t : List ℕ) : ∀ (acc : List (ℕ × ℕ)) (y : ℕ),
    y ∈ keys (t.foldl bump acc) ↔ y ∈ keys acc ∨ y ∈ t := by
  induction t with
  | nil => intro acc y; simp
  | cons c t' ih =>
    intro acc y
    simp only [List.foldl_cons]
    rw [ih]
    rcases keys_bump acc c with ⟨hm, he⟩ | ⟨hm, he⟩
    · rw [he]
      constructor
      · rintro (h | h)
        · exact Or.inl h
        · exact Or.inr (List.mem_cons_of_mem _ h)
      · rintro (h | h)
        · exact Or.inl h
        · rcases List.mem_cons.mp h with rfl | h'
          · exact Or.inl hm
          · exact Or.inr h'
    · rw [he]
      simp only [List.mem_append, List.mem_singleton, List.mem_cons]
      tauto

theorem pickMax_spec (l : List (ℕ × ℕ)) : ∀ b : ℕ × ℕ,
    (pickMax b l = b ∧ ∀ q ∈ l, q.2 ≤ b.2) ∨
    (∃ l1 q l2, l = l1 ++ q :: l2 ∧ pickMax b l = q ∧ b.2 < q.2 ∧
      (∀ r ∈ l1, r.2 < q.2) ∧ (∀ r ∈ l2, r.2 ≤ q.2)) := by
  induction l with
  | nil => intro b; left; exact ⟨rfl, by simp⟩
  | cons q rest ih =>
    intro b
    by_cases hq : b.2 < q.2
    · rcases ih q with ⟨heq, hall⟩ | ⟨l1, q', l2, hsplit, heq, hlt, h1, h2⟩
      · right
        exact ⟨[], q, rest, by simp, by simp [pickMax, hq, heq], hq, by simp, hall⟩
      · right
        refine ⟨q :: l1, q', l2, by simp [hsplit], by simp [pickMax, hq, heq], lt_trans hq hlt, ?_, h2⟩
        intro r hr
        rcases List.mem_cons.mp hr with rfl | hr'
        · exact hlt
        · exact h1 r hr'
    · rcases ih b with ⟨heq, hall⟩ | ⟨l1, q', l2, hsplit, heq, hlt, h1, h2⟩
      · left
        refine ⟨by simp [pickMax, hq, heq], ?_⟩
        intro r hr
        rcases List.mem_cons.mp hr with rfl | hr'
        · omega
        · exact hall r hr'
      · right
        refine ⟨q :: l1, q', l2, by simp [hsplit], by simp [pickMax, hq, heq], hlt, ?_, h2⟩
        intro r hr
        rcases List.mem_cons.mp hr with rfl | hr'
        · omega
        · exact h1 r hr'

theorem pickMax_mem_le (b : ℕ × ℕ) (l : List (ℕ × ℕ)) :
    pickMax b l ∈ b :: l ∧ ∀ q ∈ b :: l, q.2 ≤ (pickMax b l).2 := by
  rcases pickMax_spec l b with ⟨heq, hall⟩ | ⟨l1, q, l2, hsplit, heq, hlt, h1, h2⟩
  · refine ⟨by simp [heq], ?_⟩
    intro r hr
    rcases List.mem_cons.mp hr with rfl | hr'
    · simp [heq]
    · rw [heq]; exact hall r hr'
  · constructor
    · rw [heq, hsplit]
      exact List.mem_cons_of_mem _ (by simp)
    · intro r hr
      rw [heq]
      rcases List.mem_cons.mp hr with rfl | hr'
      · omega
      · rw [hsplit] at hr'
        rcases List.mem_append.mp hr' with h | h
        · exact le_of_lt (h1 r h)
        · rcases List.mem_cons.mp h with rfl | h'
          · exact le_refl _
          · exact h2 r h'

theorem firstIdx_append_of_mem (p t : List ℕ) (y : ℕ) (hy : y ∈ p) :
    firstIdx (p ++ t) y = firstIdx p y := by
  induction p with
  | nil => simp at hy
  | cons c p' ih =>
    by_cases hcy : c = y
    · simp [firstIdx, hcy]
    · rcases List.mem_cons.mp hy with rfl | hy'
      · exact absurd rfl hcy
      · simp [firstIdx, hcy, ih hy']

theorem firstIdx_append_of_not_mem (p t : List ℕ) (y : ℕ) (hy : y ∉ p) :
    firstIdx (p ++ t) y = p.length + firstIdx t y := by
  induction p with
  | nil => simp
  | cons c p' ih =>
    have hcy : c ≠ y := fun hh => hy (hh ▸ List.mem_cons_self c p')
    have hy' : y ∉ p' := fun hh => hy (List.mem_cons_of_mem _ hh)
    simp [firstIdx, hcy, ih hy', List.length_cons]
    omega

theorem firstIdx_lt_length (p : List ℕ) (y : ℕ) (hy : y ∈ p) :
    firstIdx p y < p.length := by
  induction p with
  | nil => simp at hy
  | cons c p' ih =>
    by_cases hcy : c = y
    · simp [firstIdx, hcy]
    · rcases List.mem_cons.mp hy with rfl | hy'
      · exact absurd rfl hcy
      · simp [firstIdx, hcy]
        exact ih hy'

theorem tally_order_aux (h : List ℕ) : ∀ (t : List ℕ) (acc : List (ℕ × ℕ)) (p : List ℕ),
    h = p ++ t → (∀ y, y ∈ keys acc ↔ y ∈ p) →
    (keys acc).Pairwise (fun a b => firstIdx h a < firstIdx h b) →
    (keys (t.foldl bump acc)).Pairwise (fun a b => firstIdx h a < firstIdx h b) := by
  intro t
  induction t with
  | nil => intro acc p _ _ hP; simpa using hP
  | cons c t' ih =>
    intro acc p hsplit hmem hP
    simp only [List.foldl_cons]
    rcases keys_bump acc c with ⟨hm, he⟩ | ⟨hm, he⟩
    · refine ih (bump acc c) (p ++ [c]) (by simp [hsplit]) ?_ (by rwa [he])
      intro y
      rw [he, hmem y, List.mem_append, List.mem_singleton]
      have hcp : c ∈ p := (hmem c).mp hm
      constructor
      · exact Or.inl
      · rintro (hyp | rfl)
        · exact hyp
        · exact hcp
    · have hcp : c ∉ p := fun hh => hm ((hmem c).mpr hh)
      refine ih (bump acc c) (p ++ [c]) (by simp [hsplit]) ?_ ?_
      · intro y
        rw [he, List.mem_append, List.mem_singleton, hmem y, List.mem_append, List.mem_singleton]
      · rw [he, List.pairwise_append]
        refine ⟨hP, List.pairwise_singleton _ c, ?_⟩
        intro a ha b hb
        have hb' : b = c := List.mem_singleton.mp hb
        rw [hb']
        have hap : a ∈ p := (hmem a).mp ha
        have h1 : firstIdx h a = firstIdx p a := by
          rw [hsplit]; exact firstIdx_append_of_mem p (c :: t') a hap
        have h2 : firstIdx h c = p.length := by
          rw [hsplit, firstIdx_append_of_not_mem p (c :: t') c hcp]
          simp [firstIdx]
        rw [h1, h2]
        exact firstIdx_lt_length p a hap

theorem tally_order (h : List ℕ) :
    (keys (tally h)).Pairwise (fun a b => firstIdx h a < firstIdx h b) :=
  tally_order_aux h h [] [] (by simp) (by simp [keys]) (by simp [keys])

theorem tally_keys_nodup (h : List ℕ) : (keys (tally h)).Nodup :=
  keys_foldl_nodup h [] (by simp [keys])

theorem mem_keys_tally (h : List ℕ) (y : ℕ) : y ∈ keys (tally h) ↔ y ∈ h := by
  rw [tally, mem_keys_foldl]
  simp [keys]

theorem tally_eq_nil_iff (h : List ℕ) : tally h = [] ↔ h = [] := by
  constructor
  · intro ht
    by_contra hne
    obtain ⟨c, t, rfl⟩ := List.exists_cons_of_ne_nil hne
    have h1 : tval (tally (c :: t)) c = cnt (c :: t) c := tval_tally _ c
    rw [ht] at h1
    simp [tval, cnt] at h1
    omega
  · rintro rfl; rfl

theorem modeOf_mem (h : List ℕ) (hne : h ≠ []) : modeOf h ∈ h := by
  obtain ⟨p, rest, ht⟩ : ∃ p rest, tally h = p :: rest := by
    rcases hl : tally h with _ | ⟨p, rest⟩
    · exact absurd ((tally_eq_nil_iff h).mp hl) hne
    · exact ⟨p, rest, rfl⟩
  have hmem := (pickMax_mem_le p rest).1
  rw [← ht] at hmem
  have : (pickMax p rest).1 ∈ keys (tally h) := List.mem_map_of_mem Prod.fst hmem
  rw [mem_keys_tally] at this
  simpa [modeOf, ht] using this

theorem modeOf_cnt_eq (h : List ℕ) (hne : h ≠ []) : ∀ p rest, tally h = p :: rest →
    cnt h (pickMax p rest).1 = (pickMax p rest).2 := by
  intro p rest ht
  have hmem := (pickMax_mem_le p rest).1
  rw [← ht] at hmem
  have := tval_of_mem_nodup (tally h) (pickMax p rest) (tally_keys_nodup h) hmem
  rw [tval_tally] at this
  exact this

theorem modeOf_count_max (h : List ℕ) (hne : h ≠ []) (x : ℕ) :
    cnt h x ≤ cnt h (modeOf h) := by
  obtain ⟨p, rest, ht⟩ : ∃ p rest, tally h = p :: rest := by
    rcases hl : tally h with _ | ⟨p, rest⟩
    · exact absurd ((tally_eq_nil_iff h).mp hl) hne
    · exact ⟨p, rest, rfl⟩
  have hmode : modeOf h = (pickMax p rest).1 := by simp [modeOf, ht]
  rw [hmode, modeOf_cnt_eq h hne p rest ht]
  by_cases hx : x ∈ h
  · have hcx : tval (tally h) x ≠ 0 := by
      rw [tval_tally]
      exact (cnt_ne_zero_iff_mem h x).mpr hx
    have hpx : (x, tval (tally h) x) ∈ tally h := tval_mem (tally h) x hcx
    have hle := (pickMax_mem_le p rest).2 (x, tval (tally h) x) (ht ▸ hpx)
    rw [tval_tally] at hle
    exact hle
  · have : cnt h x = 0 := by
      by_contra hc
      exact hx ((cnt_ne_zero_iff_mem h x).mp hc)
    omega

theorem modeOf_first (h : List ℕ) (hne : h ≠ []) (x : ℕ)
    (hx : cnt h x = cnt h (modeOf h)) :
    firstIdx h (modeOf h) ≤ firstIdx h x := by
  obtain ⟨p, rest, ht⟩ : ∃ p rest, tally h = p :: rest := by
    rcases hl : tally h with _ | ⟨p, rest⟩
    · exact absurd ((tally_eq_nil_iff h).mp hl) hne
    · exact ⟨p, rest, rfl⟩
  have hmode : modeOf h = (pickMax p rest).1 := by simp [modeOf, ht]
  by_cases hxy : x = modeOf h
  · rw [hxy]
  have hfm : cnt h (modeOf h) = (pickMax p rest).2 := by
    rw [hmode]; exact modeOf_cnt_eq h hne p rest ht
  have hmem_h : modeOf h ∈ h := modeOf_mem h hne
  have hfm_pos : cnt h (modeOf h) ≠ 0 := (cnt_ne_zero_iff_mem h _).mpr hmem_h
  have hx_pos : cnt h x ≠ 0 := by omega
  have hx_mem : x ∈ h := (cnt_ne_zero_iff_mem h x).mp hx_pos
  have hcx : tval (tally h) x ≠ 0 := by rw [tval_tally]; exact hx_pos
  have hpx : (x, tval (tally h) x) ∈ tally h := tval_mem (tally h) x hcx
  rw [tval_tally] at hpx
  have hpx2 : (x, cnt h x) ∈ p :: rest := ht ▸ hpx
  have hOrd := tally_order h
  rcases pickMax_spec rest p with ⟨heq, hall⟩ | ⟨l1, q, l2, hsplit, heq, hlt, h1, h2⟩
  · -- the head of the tally wins: it is the first key of the scan
    rcases List.mem_cons.mp hpx2 with heq2 | hrest
    · have : x = modeOf h := by
        rw [hmode, heq, ← heq2]
      exact absurd this hxy
    · have hkey : x ∈ keys rest := by
        have : (x, cnt h x).1 ∈ keys rest := List.mem_map_of_mem Prod.fst hrest
        simpa using this
      rw [ht, keys, List.map_cons] at hOrd
      have hR := List.rel_of_pairwise_cons hOrd hkey
      rw [hmode, heq]
      exact le_of_lt hR
  · -- a later strict record wins: everything before it in the scan is rarer
    rcases List.mem_cons.mp hpx2 with hp_eq | hrest
    · have : cnt h x = p.2 := congrArg Prod.snd hp_eq
      rw [hx, hfm, heq] at this
      omega
    · rw [hsplit] at hrest
      rcases List.mem_append.mp hrest with hin1 | hin2
      · have := h1 _ hin1
        simp only at this
        rw [hx, hfm, heq] at this
        omega
      · rcases List.mem_cons.mp hin2 with hq_eq | hin2'
        · have : x = modeOf h := by
            rw [hmode, heq, ← hq_eq]
          exact absurd this hxy
        · have hsub : List.Sublist (q.1 :: keys l2) (keys (tally h)) := by
            simp only [ht, hsplit, keys, List.map_cons, List.map_append]
            exact (List.sublist_append_right _ _).cons _
          have hP2 := hOrd.sublist hsub
          have hkey : x ∈ keys l2 := by
            have : (x, cnt h x).1 ∈ keys l2 := List.mem_map_of_mem Prod.fst hin2'
            simpa using this
          have hR := List.rel_of_pairwise_cons hP2 hkey
          rw [hmode, heq]
          exact le_of_lt hR

theorem length_insertByDistDesc (ctr p : Point) (l : List Point) :
    (insertByDistDesc ctr p l).length = l.length + 1 := by
  induction l with
  | nil => rfl
  | cons q rest ih =>
    by_cases hlt : distSq p ctr < distSq q ctr
    · simp [insertByDistDesc, hlt, ih]
    · simp [insertByDistDesc, hlt]

theorem length_sortByDistDesc (ctr : Point) (l : List Point) :
    (sortByDistDesc ctr l).length = l.length := by
  induction l with
  | nil => rfl
  | cons p rest ih => simp [sortByDistDesc, length_insertByDistDesc, ih]

theorem foldl_maxArea (rest : List Contour) : ∀ c : Contour,
    (rest.foldl (fun best d => if contourArea2 best < contourArea2 d then d else best) c) ∈ c :: rest ∧
    ∀ d ∈ c :: rest,
      contourArea2 d ≤
        contourArea2 (rest.foldl (fun best d => if contourArea2 best < contourArea2 d then d else best) c) := by
  induction rest with
  | nil =>
    intro c
    refine ⟨by simp, ?_⟩
    intro d hd
    rcases List.mem_cons.mp hd with rfl | hd'
    · simp
    · simp at hd'
  | cons e rest' ih =>
    intro c
    by_cases hlt : contourArea2 c < contourArea2 e
    · simp only [List.foldl_cons, if_pos hlt]
      rcases ih e with ⟨hmem, hle⟩
      constructor
      · rcases List.mem_cons.mp hmem with hh | hh
        · rw [hh]; simp
        · exact List.mem_cons_of_mem _ (List.mem_cons_of_mem _ hh)
      · intro d hd
        rcases List.mem_cons.mp hd with rfl | hd'
        · exact le_trans (le_of_lt hlt) (hle e (by simp))
        · exact hle d hd'
    · simp only [List.foldl_cons, if_neg hlt]
      rcases ih c with ⟨hmem, hle⟩
      constructor
      · rcases List.mem_cons.mp hmem with hh | hh
        · rw [hh]; simp
        · exact List.mem_cons_of_mem _ (List.mem_cons_of_mem _ hh)
      · intro d hd
        rcases List.mem_cons.mp hd with rfl | hd'
        · exact hle d (by simp)
        · rcases List.mem_cons.mp hd' with rfl | hd''
          · exact le_trans (le_of_not_lt hlt) (hle c (by simp))
          · exact hle d (List.mem_cons_of_mem _ hd'')

theorem list_len5 (l : List ℕ) (hl : l.length = 5) : ∃ a b c d e, l = [a, b, c, d, e] := by
  rcases l with _ | ⟨a, _ | ⟨b, _ | ⟨c, _ | ⟨d, _ | ⟨e, _ | ⟨f, t⟩⟩⟩⟩⟩⟩
  · simp at hl
  · simp at hl
  · simp at hl
  · simp at hl
  · simp at hl
  · exact ⟨a, b, c, d, e, rfl⟩
  · simp only [List.length_cons] at hl
    omega

/-- A narrow, tall hexagonal contour whose center computes to `(5, 51)`,
with exactly three hull vertices above the center and beyond the
5-percent-diagonal threshold of a 100 by 100 frame, and whose horizontal
extremes are too close to the center to qualify as thumb candidates.  All
six vertices lie on its convex hull. -/
def cHex : Contour := [(0, 50), (3, 1), (5, 0), (7, 1), (10, 50), (5, 120)]

/-- A fan-shaped contour (six convex top vertices over a deep bottom apex)
whose center computes to `(50, 102)`: in a 100 by 100 frame all six top
hull vertices are fingertip candidates, exercising the 5-finger cap. -/
def cFan : Contour := [(0, 10), (20, 4), (40, 0), (60, 0), (80, 4), (100, 10), (50, 300)]

/-- A triangle used for the thumb-deduplication witness. -/
def cTri : Contour := [(0, 0), (20, 0), (10, 60)]

/-- An axis-aligned rectangle of area exactly 5000. -/
def rect5000 : Contour := [(0, 0), (100, 0), (100, 50), (0, 50)]

/-- Squares of areas 9, 6084 and 6400 for the extractor witness. -/
def sqTiny : Contour := [(0, 0), (3, 0), (3, 3), (0, 3)]

def sqMid : Contour := [(0, 0), (78, 0), (78, 78), (0, 78)]

def sqBig : Contour := [(0, 0), (80, 0), (80, 80), (0, 80)]

/-- A 4-point square of area 12100: large enough to be selected as the hand
contour, but below the 5-point minimum for defect computation. -/
def bigSquare : Contour := [(0, 0), (110, 0), (110, 110), (0, 110)]

/-- A 4-point contour, below the 5-point defect minimum. -/
def cQuad : Contour := [(0, 0), (1, 0), (1, 1), (0, 1)]

/-- A degenerate 5-point contour: all points collinear, so its area moment
is zero. -/
def cFlat : Contour := [(0, 0), (2, 0), (4, 0), (2, 0), (0, 0)]

/-- A detector state whose rolling history is saturated with the value 3. -/
def stale3State : DetectorState :=
  { bgModel := BGModel.create
    countHistory := [3, 3, 3, 3, 3]
    historyIndex := 0
    fingerTips := []
    fingerCount := 3 }

/-- A detector state whose rolling history is saturated with the value 2. -/
def stale2State : DetectorState :=
  { bgModel := BGModel.create
    countHistory := [2, 2, 2, 2, 2]
    historyIndex := 0
    fingerTips := []
    fingerCount := 2 }

/-- C4, counterexample.  The claim asserts that resetting the session
controller clears the rolling count history.  It does not: `reset` in the
source reassigns only `self.bg_subtractor`; on a state whose history is
saturated with the stale value 3 the history still reads `[3,3,3,3,3]`
after the reset, and the first stabilized output after the reset with a new
raw count 0 is the stale 3, not 0. -/
theorem reset_keeps_history_cex :
    (reset stale3State).countHistory = [3, 3, 3, 3, 3] ∧
    (reset stale3State).countHistory ≠ List.replicate historyLength 0 ∧
    (stabilizeCount (reset stale3State) 0).2 = 3 := by
  decide

/-- C4, amended.  `reset` reinitializes the background model to its fresh
configuration and leaves every other detector field — in particular the
rolling count history and its write cursor — untouched, so the first call
after a reset returns the mode of a buffer holding 4 stale old values and
1 new value. -/
theorem reset_reinitializes_bg_only (s : DetectorState) (c : ℕ) :
    (reset s).bgModel = BGModel.create ∧
    (reset s).countHistory = s.countHistory ∧
    (reset s).historyIndex = s.historyIndex ∧
    (reset s).fingerCount = s.fingerCount ∧
    (stabilizeCount (reset s) c).1.countHistory = s.countHistory.set s.historyIndex c ∧
    (stabilizeCount (reset s) c).2 = modeOf (s.countHistory.set s.historyIndex c) :=
  ⟨rfl, rfl, rfl, rfl, rfl, rfl⟩

/-- C7, counterexample.  The claim reads the extractor as discarding only
contours whose area is below the 5000 threshold, so a contour of area
exactly 5000 would qualify; the source compares with strict `>`, so the
rectangle of area exactly 5000 is discarded and the extractor returns
absent, while the extractor built from the words of the specification
returns the rectangle. -/
theorem area_threshold_boundary_cex :
    contourArea2 rect5000 = 2 * 5000 ∧
    getLargestContour [rect5000] 5000 = none ∧
    getLargestContourSpec [rect5000] 5000 = some rect5000 := by
  decide

/-- C7, amended.  The extractor discards every contour whose area is at
most the 5000 threshold (strictly-greater comparison), returns absent
exactly when no contour has area strictly above the threshold, and
otherwise returns a surviving contour of maximal area (areas appear
doubled: `contourArea2 c ≤ 2 * 5000` is `area ≤ 5000`). -/
theorem largest_contour_strict_threshold (contours : List Contour) :
    (getLargestContour contours 5000 = none ↔ ∀ c ∈ contours, contourArea2 c ≤ 2 * 5000) ∧
    (∀ c : Contour, getLargestContour contours 5000 = some c →
      c ∈ contours ∧ 2 * 5000 < contourArea2 c ∧
      ∀ d ∈ contours, 2 * 5000 < contourArea2 d → contourArea2 d ≤ contourArea2 c) := by
  constructor
  · rcases hF : contours.filter (fun c => decide (2 * (5000 : ℤ) < contourArea2 c)) with _ | ⟨c0, rest⟩
    · simp only [getLargestContour, hF]
      constructor
      · intro _ c hc
        by_contra hgt
        push_neg at hgt
        have : c ∈ contours.filter (fun c => decide (2 * (5000 : ℤ) < contourArea2 c)) :=
          List.mem_filter.mpr ⟨hc, by simpa using hgt⟩
        rw [hF] at this
        simp at this
      · intro _
        trivial
    · simp only [getLargestContour, hF]
      constructor
      · intro h
        exact absurd h (by simp)
      · intro hall
        have hc0 : c0 ∈ contours.filter (fun c => decide (2 * (5000 : ℤ) < contourArea2 c)) := by
          rw [hF]; simp
        have hmf := List.mem_filter.mp hc0
        have hgt : 2 * (5000 : ℤ) < contourArea2 c0 := by simpa using hmf.2
        exact absurd (hall c0 hmf.1) (by push_neg; exact hgt)
  · intro c hc
    rcases hF : contours.filter (fun c => decide (2 * (5000 : ℤ) < contourArea2 c)) with _ | ⟨c0, rest⟩
    · rw [getLargestContour, hF] at hc
      simp at hc
    · rw [getLargestContour, hF] at hc
      simp only [Option.some_inj] at hc
      rcases foldl_maxArea rest c0 with ⟨hmem, hle⟩
      rw [hc] at hmem hle
      have hcF : c ∈ contours.filter (fun c => decide (2 * (5000 : ℤ) < contourArea2 c)) := by
        rw [hF]; exact hmem
      have hcP := List.mem_filter.mp hcF
      refine ⟨hcP.1, by simpa using hcP.2, ?_⟩
      intro d hd hdgt
      have hdF : d ∈ contours.filter (fun c => decide (2 * (5000 : ℤ) < contourArea2 c)) :=
        List.mem_filter.mpr ⟨hd, by simpa using hdgt⟩
      rw [hF] at hdF
      exact hle d hdF

/-- C7, witness: on the list of a tiny square (area 9), a square of area
6084 and a square of area 6400, the extractor returns the 6400 square,
which is a member, above the threshold, and of maximal area among the
qualifying contours. -/
theorem largest_contour_witness :
    getLargestContour [sqTiny, sqMid, sqBig] 5000 = some sqBig ∧
    (sqBig ∈ [sqTiny, sqMid, sqBig] ∧ 2 * 5000 < contourArea2 sqBig ∧
      ∀ d ∈ [sqTiny, sqMid, sqBig], 2 * 5000 < contourArea2 d → contourArea2 d ≤ contourArea2 sqBig) :=
  ⟨by decide, (largest_contour_strict_threshold [sqTiny, sqMid, sqBig]).2 sqBig (by decide)⟩

/-- C9.  A combined mask with zero foreground pixels yields no contours
from `cv2.findContours` (the external library contract), so the extractor
is called on the empty contour list: it returns absent, and `detect_hand`
reports finger count 0 on every such frame, whatever the current state;
and the mode of a history saturated with zeros is 0. -/
theorem empty_mask_no_contour_count_zero (s : DetectorState) (frame : Frame)
    (cvDef : Contour → Option (List Defect)) (cvHullIdx : Contour → List ℕ)
    (cvHullPts : Contour → List Point) (fh fw : ℕ) :
    getLargestContour [] 5000 = none ∧
    (detectHand s frame [] cvDef cvHullIdx cvHullPts fh fw).fingerCount = 0 ∧
    modeOf (List.replicate historyLength 0) = 0 :=
  ⟨rfl, rfl, by decide⟩

/-- C10.  When the extractor does find a qualifying contour but fingertip
extraction yields the empty output with raw count 0 (too few points, failed
defects, or zero area moment), the stabilizer still runs: the raw 0 is
written into the rolling history at the write cursor and the cursor
advances modulo 5 — while a frame with no qualifying contour leaves the
history and the cursor untouched. -/
theorem degenerate_contour_still_feeds_history (s : DetectorState) (frame : Frame)
    (contours : List Contour) (cvDef : Contour → Option (List Defect))
    (cvHullIdx : Contour → List ℕ) (cvHullPts : Contour → List Point)
    (fh fw : ℕ) (c : Contour)
    (hfound : getLargestContour contours 5000 = some c)
    (hdeg : findFingertips (some c) (getDefectsAndHull (some c) (cvHullIdx c) (cvDef c)).1
      (cvHullPts c) fh fw = ([], 0)) :
    (detectHand s frame contours cvDef cvHullIdx cvHullPts fh fw).countHistory
      = s.countHistory.set s.historyIndex 0 ∧
    (detectHand s frame contours cvDef cvHullIdx cvHullPts fh fw).historyIndex
      = (s.historyIndex + 1) % historyLength ∧
    (detectHand s frame [] cvDef cvHullIdx cvHullPts fh fw).countHistory = s.countHistory ∧
    (detectHand s frame [] cvDef cvHullIdx cvHullPts fh fw).historyIndex = s.historyIndex := by
  refine ⟨?_, ?_, rfl, rfl⟩ <;>
    simp [detectHand, hfound, hdeg, stabilizeCount]

/-- C10, witness: a 4-point square of area 12100 is selected as the hand
contour but is below the 5-point defect minimum, so its raw count is 0;
processing it from a state whose history is saturated with the value 2
writes a 0 over the slot at the cursor and advances the cursor, while
processing an empty contour list leaves both untouched. -/
theorem degenerate_contour_still_feeds_history_witness :
    getLargestContour [bigSquare] 5000 = some bigSquare ∧
    findFingertips (some bigSquare)
      (getDefectsAndHull (some bigSquare) [] none).1 [] 100 100 = ([], 0) ∧
    ((detectHand stale2State [] [bigSquare] (fun _ => none) (fun _ => []) (fun _ => []) 100 100).countHistory
        = stale2State.countHistory.set stale2State.historyIndex 0 ∧
      (detectHand stale2State [] [bigSquare] (fun _ => none) (fun _ => []) (fun _ => []) 100 100).historyIndex
        = (stale2State.historyIndex + 1) % historyLength ∧
      (detectHand stale2State [] [] (fun _ => none) (fun _ => []) (fun _ => []) 100 100).countHistory
        = stale2State.countHistory ∧
      (detectHand stale2State [] [] (fun _ => none) (fun _ => []) (fun _ => []) 100 100).historyIndex
        = stale2State.historyIndex) :=
  ⟨by decide, by decide,
    degenerate_contour_still_feeds_history stale2State [] [bigSquare]
      (fun _ => none) (fun _ => []) (fun _ => []) 100 100 bigSquare (by decide) (by decide)⟩

/-- C5, counterexample.  The claim asserts that when convexity-defect
computation fails, the hull-based candidate selection still runs and
produces the hull-based raw count.  On the hexagon contour `cHex` (6
points, nonzero area moment) whose hull-based raw count in a 100 by 100
frame is 3, a failed defect computation (`cvDefects = none`) makes
`_get_defects_and_hull` return absent defects, and `_find_fingertips` then
returns the empty list with raw count 0 — the hull-based selection does
not run. -/
theorem defect_failure_not_hull_count_cex :
    5 ≤ cHex.length ∧
    getDefectsAndHull (some cHex) [0, 1, 2, 3, 4, 5] none = (none, some [0, 1, 2, 3, 4, 5]) ∧
    findFingertips (some cHex) none cHex 100 100 = ([], 0) ∧
    (findFingertips (some cHex) (some []) cHex 100 100).2 = 3 := by
  decide

/-- C5, amended.  If convexity-defect computation fails on a contour with
at least 5 points, `_get_defects_and_hull` swallows the exception and
returns absent defects together with the hull, and `_find_fingertips` then
short-circuits on the absent defects and returns the empty fingertip list
with raw count 0: no error propagates, but the hull-based candidate
selection does not run for that contour. -/
theorem defect_failure_empty_output (c : Contour) (hullIdx : List ℕ)
    (hullPoints : List Point) (fh fw : ℕ) (hlen : 5 ≤ c.length) :
    getDefectsAndHull (some c) hullIdx none = (none, some hullIdx) ∧
    findFingertips (some c) none hullPoints fh fw = ([], 0) := by
  constructor
  · simp [getDefectsAndHull, Nat.not_lt.mpr hlen]
  · rfl

/-- C5, witness: the amended behavior evaluated on the hexagon contour. -/
theorem defect_failure_empty_output_witness :
    5 ≤ cHex.length ∧
    (getDefectsAndHull (some cHex) [0, 1, 2] none = (none, some [0, 1, 2]) ∧
      findFingertips (some cHex) none cHex 100 100 = ([], 0)) :=
  ⟨by decide, defect_failure_empty_output cHex [0, 1, 2] cHex 100 100 (by decide)⟩

/-- C8.  A contour with fewer than 5 points gets no defects from
`_get_defects_and_hull`, and `_find_fingertips` then returns the empty
fingertip list with raw count 0; likewise any contour whose area moment is
zero returns the empty list with raw count 0, whatever defects were
computed.  Both paths are total functions here: no error is raised. -/
theorem small_or_flat_contour_empty (c : Contour) (hullIdx : List ℕ)
    (cvDefects : Option (List Defect)) (hullPoints : List Point) (fh fw : ℕ) :
    (c.length < 5 →
      findFingertips (some c) (getDefectsAndHull (some c) hullIdx cvDefects).1
        hullPoints fh fw = ([], 0)) ∧
    (crossSum c = 0 →
      ∀ ds : List Defect, findFingertips (some c) (some ds) hullPoints fh fw = ([], 0)) := by
  constructor
  · intro hlt
    simp [getDefectsAndHull, hlt, findFingertips]
  · intro hzero ds
    simp [findFingertips, contourCenter, hzero]

/-- C8, witness: the 4-point square yields raw count 0 through the defect
guard, and the flat 5-point contour (zero area moment) yields raw count 0
through the moment guard. -/
theorem small_or_flat_contour_empty_witness :
    (cQuad.length < 5 ∧
      findFingertips (some cQuad) (getDefectsAndHull (some cQuad) [0, 1, 2, 3] none).1
        cQuad 100 100 = ([], 0)) ∧
    (crossSum cFlat = 0 ∧
      findFingertips (some cFlat) (some []) cFlat 100 100 = ([], 0)) :=
  ⟨⟨by decide, (small_or_flat_contour_empty cQuad [0, 1, 2, 3] none cQuad 100 100).1 (by decide)⟩,
   ⟨by decide, (small_or_flat_contour_empty cFlat [] (some []) cFlat 100 100).2 (by decide) []⟩⟩

/-- C1.  Given a contour with a nonzero area moment (so the center is
defined) and present defects, a hull vertex enters the candidate fingertip
list exactly when it is above the hand center (smaller y) and its distance
from the center exceeds 5 percent of the frame diagonal; and when exactly
3 hull points qualify and no thumb candidate exists, the raw count is 3. -/
theorem fingertip_candidate_iff (c : Contour) (ds : List Defect) (hullPoints : List Point)
    (ctr : Point) (fh fw : ℕ) (hc : contourCenter c = some ctr) :
    (∀ p ∈ hullPoints, p ∈ candidateFingertips hullPoints ctr fh fw ↔
      (p.2 < ctr.2 ∧ (fh : ℤ) ^ 2 + (fw : ℤ) ^ 2 < 400 * distSq p ctr)) ∧
    ((candidateFingertips hullPoints ctr fh fw).length = 3 →
      thumbCandidates hullPoints ctr (bboxW c) fh fw = [] →
      (findFingertips (some c) (some ds) hullPoints fh fw).2 = 3) := by
  constructor
  · intro p hp
    simp [candidateFingertips, List.mem_filter, candPred, hp]
  · intro h3 hthumb
    have hpre : preCapFingertips c hullPoints ctr fh fw
        = candidateFingertips hullPoints ctr fh fw := by
      rw [preCapFingertips, hthumb]
      rfl
    simp [findFingertips, hc, hpre, h3]

/-- C1, witness: on the hexagon contour (center `(5, 51)`, all six vertices
on the hull) in a 100 by 100 frame, exactly its three top vertices qualify,
no thumb candidate exists, and the raw count is 3. -/
theorem fingertip_candidate_iff_witness :
    contourCenter cHex = some (5, 51) ∧
    ((∀ p ∈ cHex, p ∈ candidateFingertips cHex (5, 51) 100 100 ↔
        (p.2 < ((5 : ℤ), (51 : ℤ)).2 ∧
          ((100 : ℕ) : ℤ) ^ 2 + ((100 : ℕ) : ℤ) ^ 2 < 400 * distSq p (5, 51))) ∧
      ((candidateFingertips cHex (5, 51) 100 100).length = 3 →
        thumbCandidates cHex (5, 51) (bboxW cHex) 100 100 = [] →
        (findFingertips (some cHex) (some []) cHex 100 100).2 = 3)) ∧
    (candidateFingertips cHex (5, 51) 100 100).length = 3 ∧
    thumbCandidates cHex (5, 51) (bboxW cHex) 100 100 = [] ∧
    (findFingertips (some cHex) (some []) cHex 100 100).2 = 3 :=
  ⟨by decide, fingertip_candidate_iff cHex [] cHex (5, 51) 100 100 (by decide),
   by decide, by decide, by decide⟩

/-- C2.  For every input, the raw count of `_find_fingertips` is at most 5
and equals the length of the returned fingertip list; and when more than 5
candidates exist before the cap, the result is the first 5 of the stable
distance-descending sort — the 5 farthest from the hand center — so the cap
never produces a count above 5. -/
theorem raw_count_le_five (contour : Option Contour) (defects : Option (List Defect))
    (hullPoints : List Point) (fh fw : ℕ) :
    (findFingertips contour defects hullPoints fh fw).2 ≤ 5 ∧
    (findFingertips contour defects hullPoints fh fw).2
      = (findFingertips contour defects hullPoints fh fw).1.length ∧
    (∀ c ds ctr, contour = some c → defects = some ds → contourCenter c = some ctr →
      5 < (preCapFingertips c hullPoints ctr fh fw).length →
      (findFingertips contour defects hullPoints fh fw).1
          = (sortByDistDesc ctr (preCapFingertips c hullPoints ctr fh fw)).take 5 ∧
        (findFingertips contour defects hullPoints fh fw).2 = 5) := by
  rcases contour with _ | c
  · refine ⟨by simp [findFingertips], by simp [findFingertips], ?_⟩
    rintro c ds ctr ⟨⟩
  rcases defects with _ | ds
  · refine ⟨by simp [findFingertips], by simp [findFingertips], ?_⟩
    rintro c' ds ctr _ ⟨⟩
  rcases hctr : contourCenter c with _ | ctr
  · refine ⟨by simp [findFingertips, hctr], by simp [findFingertips, hctr], ?_⟩
    rintro c' ds' ctr heq1 _ heq3 _
    rw [Option.some_inj] at heq1
    rw [← heq1, hctr] at heq3
    exact absurd heq3 (by simp)
  by_cases hcap : 5 < (preCapFingertips c hullPoints ctr fh fw).length
  · have hfin : findFingertips (some c) (some ds) hullPoints fh fw
        = ((sortByDistDesc ctr (preCapFingertips c hullPoints ctr fh fw)).take 5,
           ((sortByDistDesc ctr (preCapFingertips c hullPoints ctr fh fw)).take 5).length) := by
      simp [findFingertips, hctr, hcap]
    have hlen5 : ((sortByDistDesc ctr (preCapFingertips c hullPoints ctr fh fw)).take 5).length = 5 := by
      rw [List.length_take, length_sortByDistDesc]
      omega
    refine ⟨by rw [hfin]; simp [hlen5], by rw [hfin], ?_⟩
    rintro c' ds' ctr' heq1 heq2 heq3 hlen'
    rw [Option.some_inj] at heq1
    subst heq1
    rw [hctr, Option.some_inj] at heq3
    subst heq3
    exact ⟨by rw [hfin], by rw [hfin]; simp [hlen5]⟩
  · have hfin : findFingertips (some c) (some ds) hullPoints fh fw
        = (preCapFingertips c hullPoints ctr fh fw,
           (preCapFingertips c hullPoints ctr fh fw).length) := by
      simp [findFingertips, hctr, hcap]
    refine ⟨by rw [hfin]; simpa using Nat.le_of_not_lt hcap, by rw [hfin], ?_⟩
    rintro c' ds' ctr' heq1 heq2 heq3 hlen'
    rw [Option.some_inj] at heq1
    subst heq1
    rw [hctr, Option.some_inj] at heq3
    subst heq3
    exact absurd hlen' hcap

/-- C2, witness: on the fan contour (center `(50, 102)`, all seven vertices
on the hull) in a 100 by 100 frame, six candidates survive the filters, so
the cap keeps the 5 farthest and the raw count is 5. -/
theorem raw_count_le_five_witness :
    contourCenter cFan = some (50, 102) ∧
    5 < (preCapFingertips cFan cFan (50, 102) 100 100).length ∧
    ((findFingertips (some cFan) (some []) cFan 100 100).1
        = (sortByDistDesc (50, 102) (preCapFingertips cFan cFan (50, 102) 100 100)).take 5 ∧
      (findFingertips (some cFan) (some []) cFan 100 100).2 = 5) ∧
    (findFingertips (some cFan) (some []) cFan 100 100).2 ≤ 5 :=
  ⟨by decide, by decide,
   (raw_count_le_five (some cFan) (some []) cFan 100 100).2.2 cFan [] (50, 102)
     rfl rfl (by decide) (by decide),
   by decide⟩

/-- The contour for the C6 counterexample: a square with a collinear extra
point on its top edge, center `(30, 30)`. -/
def cC6 : Contour := [(0, 0), (30, 0), (60, 0), (60, 60), (0, 60)]

/-- Its convex hull in point form: the four corners. -/
def hullC6 : List Point := [(0, 0), (60, 0), (60, 60), (0, 60)]

/-- C6, counterexample.  The claim asserts that every hull vertex whose
horizontal offset from the center exceeds 25 percent of the bounding-box
width is a thumb candidate.  In a 1000 by 1000 frame, the hull vertex
`(60, 60)` of `cC6` has offset `30` with `4 * 30 = 120` above the width
`61`, yet the thumb candidate list of the source is empty — the source also
requires the 5-percent-diagonal distance condition, which `(60, 60)` fails —
and the full fingertip computation returns no fingertips at all, while the
claim would have kept `(60, 60)` as the farthest thumb candidate. -/
theorem thumb_offset_only_not_candidate_cex :
    (60, 60) ∈ hullC6 ∧
    contourCenter cC6 = some (30, 30) ∧
    bboxW cC6 < 4 * |(60 : ℤ) - 30| ∧
    thumbCandidates hullC6 (30, 30) (bboxW cC6) 1000 1000 = [] ∧
    findFingertips (some cC6) (some []) hullC6 1000 1000 = ([], 0) := by
  decide

/-- Number of occurrences of a point in a point list. -/
def cntP : List Point → Point → ℕ
  | [], _ => 0
  | q :: t, p => (if p = q then 1 else 0) + cntP t p

theorem cntP_eq_zero (l : List Point) (p : Point) (hp : p ∉ l) : cntP l p = 0 := by
  induction l with
  | nil => rfl
  | cons q t ih =>
    have hpq : p ≠ q := fun hh => hp (hh ▸ List.mem_cons_self q t)
    have hpt : p ∉ t := fun hh => hp (List.mem_cons_of_mem _ hh)
    simp [cntP, hpq, ih hpt]

theorem cntP_eq_one (l : List Point) (p : Point) (hnd : l.Nodup) (hp : p ∈ l) :
    cntP l p = 1 := by
  induction l with
  | nil => simp at hp
  | cons q t ih =>
    rcases List.mem_cons.mp hp with rfl | hp'
    · have hnt : p ∉ t := (List.nodup_cons.mp hnd).1
      simp [cntP, cntP_eq_zero t p hnt]
    · have hpq : p ≠ q := by
        rintro rfl
        exact (List.nodup_cons.mp hnd).1 hp'
      simp [cntP, hpq, ih (List.nodup_cons.mp hnd).2 hp']

/-- C6, amended.  A hull vertex is a thumb candidate exactly when its
horizontal offset from the center exceeds 25 percent of the bounding-box
width AND its distance from the center exceeds the 5-percent-diagonal
threshold; among the candidates only the head of the distance-descending
stable sort (the farthest, first wins ties) is considered, and when that
point already appears among the above-center candidates, the pre-cap list
is exactly the above-center candidate list and (the hull vertices being
pairwise distinct) the point appears exactly once in it. -/
theorem thumb_dedup (c : Contour) (hullPoints : List Point) (ctr : Point)
    (fh fw : ℕ) (tp : Point) (hnd : hullPoints.Nodup)
    (hhead : (sortByDistDesc ctr (thumbCandidates hullPoints ctr (bboxW c) fh fw)).head?
      = some tp)
    (hdual : tp ∈ candidateFingertips hullPoints ctr fh fw) :
    (∀ p ∈ hullPoints, p ∈ thumbCandidates hullPoints ctr (bboxW c) fh fw ↔
      (bboxW c < 4 * |p.1 - ctr.1| ∧ (fh : ℤ) ^ 2 + (fw : ℤ) ^ 2 < 400 * distSq p ctr)) ∧
    preCapFingertips c hullPoints ctr fh fw = candidateFingertips hullPoints ctr fh fw ∧
    cntP (preCapFingertips c hullPoints ctr fh fw) tp = 1 := by
  have hpre : preCapFingertips c hullPoints ctr fh fw
      = candidateFingertips hullPoints ctr fh fw := by
    rw [preCapFingertips]
    rcases hsort : sortByDistDesc ctr (thumbCandidates hullPoints ctr (bboxW c) fh fw)
      with _ | ⟨q, rest⟩
    · rfl
    · rw [hsort] at hhead
      simp only [List.head?_cons, Option.some_inj] at hhead
      subst hhead
      simp [hdual]
  refine ⟨?_, hpre, ?_⟩
  · intro p hp
    simp [thumbCandidates, List.mem_filter, thumbPred, hp]
  · rw [hpre]
    have hndc : (candidateFingertips hullPoints ctr fh fw).Nodup :=
      hnd.filter (candPred ctr fh fw)
    exact cntP_eq_one _ tp hndc hdual

/-- C6, witness: on the triangle `cTri` with center `(10, 40)` in a 100 by
100 frame, `(0, 0)` is both an above-center candidate and the farthest
thumb candidate; it appears exactly once in the pre-cap fingertip list. -/
theorem thumb_dedup_witness :
    cTri.Nodup ∧
    (sortByDistDesc (10, 40) (thumbCandidates cTri (10, 40) (bboxW cTri) 100 100)).head?
      = some (0, 0) ∧
    (0, 0) ∈ candidateFingertips cTri (10, 40) 100 100 ∧
    ((∀ p ∈ cTri, p ∈ thumbCandidates cTri (10, 40) (bboxW cTri) 100 100 ↔
        (bboxW cTri < 4 * |p.1 - ((10 : ℤ), (40 : ℤ)).1| ∧
          ((100 : ℕ) : ℤ) ^ 2 + ((100 : ℕ) : ℤ) ^ 2 < 400 * distSq p (10, 40))) ∧
      preCapFingertips cTri cTri (10, 40) 100 100
        = candidateFingertips cTri (10, 40) 100 100 ∧
      cntP (preCapFingertips cTri cTri (10, 40) 100 100) (0, 0) = 1) :=
  ⟨by decide, by decide, by decide,
   thumb_dedup cTri cTri (10, 40) 100 100 (0, 0) (by decide) (by decide) (by decide)⟩

/-- Feeding one raw count through the stabilizer, keeping the state. -/
def feedRaw (s : DetectorState) (c : ℕ) : DetectorState := (stabilizeCount s c).1

theorem modeOf_five_same (N : ℕ) : modeOf [N, N, N, N, N] = N := by
  simp [modeOf, tally, bump, pickMax]

/-- C3.  One call of `_stabilize_count` overwrites the slot at the write
cursor with the new raw count, advances the cursor modulo the buffer
length 5, and returns the mode of the updated buffer: the returned value
occurs in the buffer, no value occurs in it more often, and among equally
frequent values the returned one is the first encountered during the
frequency scan (smallest first-occurrence index).  Consequently feeding
the same raw count `N` for 5 consecutive calls returns `N`. -/
theorem stabilizer_mode_spec (s : DetectorState) (count : ℕ)
    (hlen : s.countHistory.length = historyLength)
    (hidx : s.historyIndex < historyLength) :
    (stabilizeCount s count).1.countHistory = s.countHistory.set s.historyIndex count ∧
    (stabilizeCount s count).1.historyIndex = (s.historyIndex + 1) % historyLength ∧
    (stabilizeCount s count).2 = modeOf (s.countHistory.set s.historyIndex count) ∧
    (stabilizeCount s count).2 ∈ s.countHistory.set s.historyIndex count ∧
    (∀ x, cnt (s.countHistory.set s.historyIndex count) x
      ≤ cnt (s.countHistory.set s.historyIndex count) ((stabilizeCount s count).2)) ∧
    (∀ x, cnt (s.countHistory.set s.historyIndex count) x
        = cnt (s.countHistory.set s.historyIndex count) ((stabilizeCount s count).2) →
      firstIdx (s.countHistory.set s.historyIndex count) ((stabilizeCount s count).2)
        ≤ firstIdx (s.countHistory.set s.historyIndex count) x) ∧
    (∀ N, (stabilizeCount (feedRaw (feedRaw (feedRaw (feedRaw s N) N) N) N) N).2 = N) := by
  have hne : s.countHistory.set s.historyIndex count ≠ [] := by
    intro hnil
    have := congrArg List.length hnil
    rw [List.length_set, hlen] at this
    simp [historyLength] at this
  refine ⟨rfl, rfl, rfl, modeOf_mem _ hne, fun x => modeOf_count_max _ hne x,
    fun x hx => modeOf_first _ hne x hx, ?_⟩
  intro N
  obtain ⟨a, b, c, d, e, hh⟩ := list_len5 s.countHistory hlen
  have hi5 : s.historyIndex = 0 ∨ s.historyIndex = 1 ∨ s.historyIndex = 2 ∨
      s.historyIndex = 3 ∨ s.historyIndex = 4 := by
    have h5 := hidx
    simp only [historyLength] at h5
    omega
  rcases hi5 with hi | hi | hi | hi | hi <;>
    simp [feedRaw, stabilizeCount, hh, hi, historyLength, List.set, modeOf_five_same]

/-- C3, witness: one call on a state whose buffer is saturated with 3 at
cursor 0 and raw count 1 yields the buffer `[1,3,3,3,3]`, cursor 1, and
stabilized output `modeOf [1,3,3,3,3] = 3`; and 5 consecutive calls with
the same raw count return that count. -/
theorem stabilizer_mode_spec_witness :
    stale3State.countHistory.length = historyLength ∧
    stale3State.historyIndex < historyLength ∧
    ((stabilizeCount stale3State 1).1.countHistory
        = stale3State.countHistory.set stale3State.historyIndex 1 ∧
      (stabilizeCount stale3State 1).1.historyIndex
        = (stale3State.historyIndex + 1) % historyLength ∧
      (stabilizeCount stale3State 1).2
        = modeOf (stale3State.countHistory.set stale3State.historyIndex 1) ∧
      (stabilizeCount stale3State 1).2
        ∈ stale3State.countHistory.set stale3State.historyIndex 1 ∧
      (∀ x, cnt (stale3State.countHistory.set stale3State.historyIndex 1) x
        ≤ cnt (stale3State.countHistory.set stale3State.historyIndex 1)
            ((stabilizeCount stale3State 1).2)) ∧
      (∀ x, cnt (stale3State.countHistory.set stale3State.historyIndex 1) x
          = cnt (stale3State.countHistory.set stale3State.historyIndex 1)
              ((stabilizeCount stale3State 1).2) →
        firstIdx (stale3State.countHistory.set stale3State.historyIndex 1)
            ((stabilizeCount stale3State 1).2)
          ≤ firstIdx (stale3State.countHistory.set stale3State.historyIndex 1) x) ∧
      (∀ N, (stabilizeCount
          (feedRaw (feedRaw (feedRaw (feedRaw stale3State N) N) N) N) N).2 = N)) ∧
    (stabilizeCount stale3State 1).2 = 3 :=
  ⟨by decide, by decide, stabilizer_mode_spec stale3State 1 (by decide) (by decide), by decide⟩
